import Mathlib

/-!
# Verification of the Limit price level of the matching engine

Shallow embedding of `src/src/core/Limit.cpp` (class `Limit` of the
single-symbol limit order book): `addOrderToLimit`, `processFill`,
`logExecution`, `decreaseSize`, together with the slices of the `Book`
collaborator that `Limit.cpp` calls into (`addOrderToAllOrders`,
`getSymbol`, `getNextExecutionId`, `addExecutionToQueue`) and the
`Execution` record.  `Book.h`, `Order.h` and `Execution.h` are not part
of the source tree; where their behavior is needed it is modelled from
the specification and marked `Modelled from the spec:` in the doc
comment.

Numeric representation: C++ `int` quantities (`shares`, `size`,
`totalVolume`, `limitPrice`, `executedQuantity`) are embedded as `Int`.
The C++ code stores `executionVolume` in an `unsigned int`; all the
theorems below operate under the book invariants (non-negative taker
quantity, strictly positive resting shares) in which every such
conversion is value-preserving, so the embedding keeps plain `Int`
arithmetic.  Average prices are embedded as exact rationals
(`Modelled from the spec:` the spec demands the volume-weighted ratio
exactly; the `avgPrice` field's machine type lives in the missing
`Order.h`).

The C++ intrusive doubly-linked FIFO (raw `prev`/`next` pointers inside
`Order`, with `Limit` holding `headOrder`/`tailOrder`) is embedded as
the list of orders reachable from `headOrder` through `next`
(`headChain`), plus a separate `tailOrder` field holding the id of the
order the raw tail pointer designates — the source updates `tailOrder`
only in `addOrderToLimit`, never in `processFill`, and that asymmetry is
observable, so the tail pointer must be tracked independently of the
chain.
-/

namespace OrderBook

/-- `Side` — enum {Buy, Sell} (spec §3; used by `Limit.cpp` as `Side`). -/
inductive Side where
  | Buy : Side
  | Sell : Side
deriving DecidableEq, Repr

/-- `ExecutionType` — enum {PartialFill, FullFill} (spec §3). -/
inductive ExecutionType where
  | PartialFill : ExecutionType
  | FullFill : ExecutionType
deriving DecidableEq, Repr

/-- `OrderData` — the mutable taker intent handed to `Limit::processFill`
(spec §3; the struct itself lives in a header not under `src/`, its
fields are read/written by `Limit.cpp`: `clientId`, `orderSide`,
`shares`, `executedQuantity`, `avgPrice`). -/
structure OrderData where
  clientId : Nat
  orderSide : Side
  limitPrice : Int
  shares : Int
  executedQuantity : Int
  avgPrice : ℚ
deriving DecidableEq, Repr

/-- A resting `Order`.  Modelled from the spec: `Order.h` is not under
`src/`; per spec §3 an Order carries the immutable `orderId`,
`clientId`, `side`, `limitPrice` plus the mutable `shares`,
`executedQuantity`, `avgPrice`.  The FIFO position (prev/next pointers)
is represented by the order's position in its Limit's `headChain`. -/
structure Order where
  orderId : Nat
  clientId : Nat
  orderSide : Side
  limitPrice : Int
  shares : Int
  executedQuantity : Int
  avgPrice : ℚ
deriving DecidableEq, Repr

/-- The `Execution` output record, fields exactly as enumerated in spec
§3. -/
structure Execution where
  symbol : String
  executionId : Nat
  makerOrderId : Nat
  takerOrderId : Nat
  execPrice : Int
  execSize : Int
  makerSide : Side
  takerSide : Side
  makerExecType : ExecutionType
  takerExecType : ExecutionType
  makerClientId : Nat
  takerClientId : Nat
  makerCumQty : Int
  takerCumQty : Int
  makerLeavesQty : Int
  takerLeavesQty : Int
  makerAvgPrice : ℚ
  takerAvgPrice : ℚ
deriving DecidableEq, Repr

/-- The slice of the `Book` collaborator visible from `Limit.cpp`.
Modelled from the spec: `Book.h`/`Book.cpp` are not under `src/`.  Per
spec §2/§4.1 the Book owns the symbol, the execution-id sequencer, the
ExecutionQueue (`executions`, append-only) and the OrderIndex
(`allOrders`; only the key set of the `orderId → Order` map is needed
by the claims, so it is embedded as the list of registered order
ids). -/
structure Book where
  symbol : String
  nextExecutionId : Nat
  executions : List Execution
  allOrders : List Nat
deriving DecidableEq, Repr

/-- `Book::addOrderToAllOrders` — Modelled from the spec: registers the
new order in the OrderIndex (spec §4.1 step 7, §3 OrderIndex). -/
def Book.addOrderToAllOrders (book : Book) (orderId : Nat) : Book :=
  { book with allOrders := book.allOrders ++ [orderId] }

/-- `Book::addExecutionToQueue` — Modelled from the spec: appends the
completed Execution to the FIFO ExecutionQueue (spec §4.5). -/
def Book.addExecutionToQueue (book : Book) (e : Execution) : Book :=
  { book with executions := book.executions ++ [e] }

/-- State of one `Limit` price level: `Limit.cpp` fields `limitPrice`,
`size`, `totalVolume`, plus `headChain` (the orders reachable from
`headOrder` via `next`, head first) and `tailOrder` (the id designated
by the raw `tailOrder` pointer, `none` for `nullptr`). -/
structure LimitState where
  limitPrice : Int
  size : Int
  totalVolume : Int
  headChain : List Order
  tailOrder : Option Nat
deriving DecidableEq, Repr

/-- `Limit::Limit(int limitPrice)` (Limit.cpp lines 8-10): size 0,
totalVolume 0, head and tail null. -/
def mkLimit (limitPrice : Int) : LimitState :=
  { limitPrice := limitPrice, size := 0, totalVolume := 0,
    headChain := [], tailOrder := none }

/-- `Limit::decreaseSize` (Limit.cpp lines 133-138): decrement only when
positive. -/
def decreaseSize (size : Int) : Int :=
  if size > 0 then size - 1 else size

/-- Sum of the remaining shares of the orders of a queue (the quantity
`totalVolume` is specified to track, spec §3/§8 invariant 1). -/
def sumShares (l : List Order) : Int :=
  (l.map Order.shares).sum

/-- `Order(orderData, this, newOrderId)` — Modelled from the spec:
`Order.h` is not under `src/`; per spec §3 the engine copies the
intent's fields into the new resting Order. -/
def mkOrder (orderData : OrderData) (newOrderId : Nat) : Order :=
  { orderId := newOrderId, clientId := orderData.clientId,
    orderSide := orderData.orderSide, limitPrice := orderData.limitPrice,
    shares := orderData.shares, executedQuantity := orderData.executedQuantity,
    avgPrice := orderData.avgPrice }

/-- `Limit::addOrderToLimit` (Limit.cpp lines 18-39): construct the new
Order from the intent, bump `totalVolume` and `size`, link the order at
the tail of the FIFO (`if (!headOrder)` sets head = tail = the new
order, otherwise the new order is appended after the current tail and
becomes the tail), then register it through
`book.addOrderToAllOrders`. -/
def addOrderToLimit (L : LimitState) (orderData : OrderData) (book : Book)
    (newOrderId : Nat) : LimitState × Book :=
  let newOrder : Order := mkOrder orderData newOrderId
  let L1 := { L with totalVolume := L.totalVolume + orderData.shares,
                     size := L.size + 1 }
  let L2 :=
    if L1.headChain.isEmpty then
      { L1 with headChain := [newOrder], tailOrder := some newOrderId }
    else
      { L1 with headChain := L1.headChain ++ [newOrder], tailOrder := some newOrderId }
  (L2, book.addOrderToAllOrders newOrderId)

/-- New maker volume-weighted average price (Limit.cpp line 100):
`(oldCum * oldAvg + executionVolume * makerOrder->getLimit()) / makerTotalExecQty`,
with `makerTotalExecQty = oldCum + executionVolume` (line 97).
Arithmetic is exact rational (see header note). -/
def newMakerAvgPrice (executionVolume : Int) (makerOrder : Order) : ℚ :=
  ((makerOrder.executedQuantity : ℚ) * makerOrder.avgPrice
      + (executionVolume : ℚ) * (makerOrder.limitPrice : ℚ))
    / ((makerOrder.executedQuantity + executionVolume : Int) : ℚ)

/-- New taker volume-weighted average price (Limit.cpp line 101):
`(taker.executedQuantity * taker.avgPrice + executionVolume * makerOrder->getLimit()) / takerTotalExecQty`,
with `takerTotalExecQty = taker.executedQuantity + executionVolume`
(line 98). -/
def newTakerAvgPrice (executionVolume : Int) (takerData : OrderData)
    (makerOrder : Order) : ℚ :=
  ((takerData.executedQuantity : ℚ) * takerData.avgPrice
      + (executionVolume : ℚ) * (makerOrder.limitPrice : ℚ))
    / ((takerData.executedQuantity + executionVolume : Int) : ℚ)

/-- The `Execution` value constructed in `Limit::logExecution`
(Limit.cpp lines 106-125), argument by argument.  The constructor's
parameter-to-field mapping is Modelled from the spec: `Execution.h` is
not under `src/`, and spec §3 enumerates the fields in the order
`symbol, executionId, makerOrderId, takerOrderId, execPrice, execSize,
makerSide, takerSide, makerExecType, takerExecType, makerClientId,
takerClientId, makerCumQty, takerCumQty, makerLeavesQty, takerLeavesQty,
makerAvgPrice, takerAvgPrice`, which also matches the source's own
per-argument comments for every commented argument.  Under that mapping
the call site passes `takerData.clientId` as argument 11
(`makerClientId`) and `makerOrder->getClientId()` as argument 12
(`takerClientId`) — Limit.cpp lines 117-118 — the only maker/taker pair
passed taker-first.  `remainingTakerShares`/`remainingMakerShares` and
the exec types are computed in lines 91-95 from the pre-fill `shares`;
the cum quantities in lines 97-98; the average prices read back after
the updates of lines 100-101. -/
def mkExecution (executionVolume : Int) (takerOrderId : Nat)
    (takerData : OrderData) (makerOrder : Order) (book : Book) : Execution :=
  { symbol := book.symbol
    executionId := book.nextExecutionId
    makerOrderId := makerOrder.orderId
    takerOrderId := takerOrderId
    execPrice := makerOrder.limitPrice
    execSize := executionVolume
    makerSide := makerOrder.orderSide
    takerSide := takerData.orderSide
    makerExecType :=
      if executionVolume = makerOrder.shares then ExecutionType.FullFill
      else ExecutionType.PartialFill
    takerExecType :=
      if takerData.shares - executionVolume = 0 then ExecutionType.FullFill
      else ExecutionType.PartialFill
    makerClientId := takerData.clientId
    takerClientId := makerOrder.clientId
    makerCumQty := makerOrder.executedQuantity + executionVolume
    takerCumQty := takerData.executedQuantity + executionVolume
    makerLeavesQty := makerOrder.shares - executionVolume
    takerLeavesQty := takerData.shares - executionVolume
    makerAvgPrice := newMakerAvgPrice executionVolume makerOrder
    takerAvgPrice := newTakerAvgPrice executionVolume takerData makerOrder }

/-- Result of `Limit::logExecution`: the mutations it performs on the
taker intent, the maker order and the Book. -/
structure LogResult where
  taker : OrderData
  maker : Order
  book : Book
deriving DecidableEq, Repr

/-- `Limit::logExecution` (Limit.cpp lines 89-128).  Updates the
maker's and taker's `avgPrice` (lines 100-101, using the *old*
`executedQuantity`) and then their `executedQuantity` (lines 103-104),
builds the `Execution` (lines 106-125: the execution id is drawn from
`book.getNextExecutionId()`, modelled from the spec as the Book's
monotonic sequencer counter) and appends it to the Book's queue
(line 127). -/
def logExecution (executionVolume : Int) (takerOrderId : Nat)
    (takerData : OrderData) (makerOrder : Order) (book : Book) : LogResult :=
  { taker := { takerData with
        avgPrice := newTakerAvgPrice executionVolume takerData makerOrder,
        executedQuantity := takerData.executedQuantity + executionVolume }
    maker := { makerOrder with
        avgPrice := newMakerAvgPrice executionVolume makerOrder,
        executedQuantity := makerOrder.executedQuantity + executionVolume }
    book := (Book.addExecutionToQueue
        { book with nextExecutionId := book.nextExecutionId + 1 }
        (mkExecution executionVolume takerOrderId takerData makerOrder book)) }

/-- Result of `Limit::processFill`: the final Limit state, taker intent
and Book, whether the self-trade exception was thrown
(`selfTradeError`), and whether the recursion ran out of fuel
(`fuelExhausted`; `processFill` supplies enough fuel, and
`processFill_terminates` proves the flag is never set). -/
structure FillResult where
  limit : LimitState
  taker : OrderData
  book : Book
  selfTradeError : Bool
  fuelExhausted : Bool
deriving DecidableEq, Repr

/-- The `while` loop of `Limit::processFill` (Limit.cpp lines 54-76),
fuel-indexed.  Loop guard: `nxtOrder != nullptr && size != 0 &&
takerData.shares != 0` (line 54).  Body: the self-trade check throws
(lines 56-58; the throw is embedded as returning the state accumulated
so far with `selfTradeError := true`, matching the C++ exception which
leaves all already-performed mutations in place); `executionVolume =
min(orderShares, takerData.shares)` (line 61); `logExecution` (line 63);
`totalVolume -= executionVolume` (line 65); then either the maker is
fully consumed (`executionVolume >= orderShares`, lines 67-71: taker
loses `orderShares`, `decreaseSize()`, head advances to the next order —
`tailOrder` is *not* touched) or partially (lines 72-75: maker keeps
`orderShares - executionVolume`, taker loses `executionVolume`). -/
def processFillLoop : Nat → Nat → Nat → List Order → Int → Int → OrderData →
    Book → Int → Option Nat → FillResult
  | 0, _, _, chain, sz, tv, takerData, book, lp, tl =>
      { limit := { limitPrice := lp, size := sz, totalVolume := tv,
                   headChain := chain, tailOrder := tl },
        taker := takerData, book := book,
        selfTradeError := false, fuelExhausted := true }
  | _ + 1, _, _, [], sz, tv, takerData, book, lp, tl =>
      { limit := { limitPrice := lp, size := sz, totalVolume := tv,
                   headChain := [], tailOrder := tl },
        taker := takerData, book := book,
        selfTradeError := false, fuelExhausted := false }
  | fuel + 1, takerClientId, takerOrderId, nxtOrder :: rest, sz, tv,
      takerData, book, lp, tl =>
      if sz = 0 ∨ takerData.shares = 0 then
        { limit := { limitPrice := lp, size := sz, totalVolume := tv,
                     headChain := nxtOrder :: rest, tailOrder := tl },
          taker := takerData, book := book,
          selfTradeError := false, fuelExhausted := false }
      else if takerClientId = nxtOrder.clientId then
        { limit := { limitPrice := lp, size := sz, totalVolume := tv,
                     headChain := nxtOrder :: rest, tailOrder := tl },
          taker := takerData, book := book,
          selfTradeError := true, fuelExhausted := false }
      else
        let orderShares := nxtOrder.shares
        let executionVolume := min orderShares takerData.shares
        let r := logExecution executionVolume takerOrderId takerData nxtOrder book
        let tv1 := tv - executionVolume
        if orderShares ≤ executionVolume then
          processFillLoop fuel takerClientId takerOrderId rest
            (decreaseSize sz) tv1
            { r.taker with shares := r.taker.shares - orderShares }
            r.book lp tl
        else
          processFillLoop fuel takerClientId takerOrderId
            ({ r.maker with shares := orderShares - executionVolume } :: rest)
            sz tv1
            { r.taker with shares := r.taker.shares - executionVolume }
            r.book lp tl

/-- `Limit::processFill` (Limit.cpp lines 48-77): reads
`takerData.clientId` once (line 51), starts the walk at `headOrder`
(line 50) and runs the loop.  The fuel `headChain.length + 1` always
suffices (`processFill_terminates`). -/
def processFill (L : LimitState) (takerData : OrderData) (orderId : Nat)
    (book : Book) : FillResult :=
  processFillLoop (L.headChain.length + 1) takerData.clientId orderId
    L.headChain L.size L.totalVolume takerData book L.limitPrice L.tailOrder

/-- Sample empty book for concrete runs. -/
def bk0 : Book :=
  { symbol := "SYM", nextExecutionId := 0, executions := [], allOrders := [] }

/-- Sample intent: client 1 buys 5 shares at 100. -/
def odBuy1 : OrderData :=
  { clientId := 1, orderSide := Side.Buy, limitPrice := 100, shares := 5,
    executedQuantity := 0, avgPrice := 0 }

/-- Sample intent: client 2 sells 5 shares at 100. -/
def odSell2 : OrderData :=
  { clientId := 2, orderSide := Side.Sell, limitPrice := 100, shares := 5,
    executedQuantity := 0, avgPrice := 0 }

/-- Sample intent: client 3 buys 4 shares at 100. -/
def odBuy3 : OrderData :=
  { clientId := 3, orderSide := Side.Buy, limitPrice := 100, shares := 4,
    executedQuantity := 0, avgPrice := 0 }

/-- Sample intent: client 2 sells 9 shares at 100. -/
def odSell2big : OrderData :=
  { clientId := 2, orderSide := Side.Sell, limitPrice := 100, shares := 9,
    executedQuantity := 0, avgPrice := 0 }

/-- Sample intent: client 2 buys 3 shares at 100 (used to build a resting
order owned by the same client as a later taker). -/
def odBuy2 : OrderData :=
  { clientId := 2, orderSide := Side.Buy, limitPrice := 100, shares := 3,
    executedQuantity := 0, avgPrice := 0 }

/-- Limit at 100 holding the single resting order of client 1 (id 7). -/
def s1 : LimitState × Book := addOrderToLimit (mkLimit 100) odBuy1 bk0 7

/-- Limit at 100 holding client 1's order (id 7) then client 3's (id 9). -/
def s2 : LimitState × Book := addOrderToLimit s1.1 odBuy3 s1.2 9

/-- Limit at 100 holding client 1's order (id 7) then client 2's (id 9). -/
def s3 : LimitState × Book := addOrderToLimit s1.1 odBuy2 s1.2 9

/-- Sample intent for the stale-tail run: client 1 buys 4 shares at 50. -/
def odBuy1at50 : OrderData :=
  { clientId := 1, orderSide := Side.Buy, limitPrice := 50, shares := 4,
    executedQuantity := 0, avgPrice := 0 }

/-- Sample intent: client 2 sells 4 shares at 50. -/
def odSell2at50 : OrderData :=
  { clientId := 2, orderSide := Side.Sell, limitPrice := 50, shares := 4,
    executedQuantity := 0, avgPrice := 0 }

/-- Limit at 50 holding the single resting order of client 1 (id 3). -/
def s4 : LimitState × Book := addOrderToLimit (mkLimit 50) odBuy1at50 bk0 3

/-- Sample intent: client 5 buys 2 shares at 7. -/
def odBuy5at7 : OrderData :=
  { clientId := 5, orderSide := Side.Buy, limitPrice := 7, shares := 2,
    executedQuantity := 0, avgPrice := 0 }

/-- Sample intent: client 6 sells 2 shares at 7. -/
def odSell6at7 : OrderData :=
  { clientId := 6, orderSide := Side.Sell, limitPrice := 7, shares := 2,
    executedQuantity := 0, avgPrice := 0 }

/-- Limit at 7 holding the single resting order of client 5 (id 11). -/
def s5 : LimitState × Book := addOrderToLimit (mkLimit 7) odBuy5at7 bk0 11

end OrderBook

namespace OrderBook

/-! ## Helper lemmas about `logExecution` -/

@[simp]
theorem logExecution_taker_shares (v : Int) (toid : Nat) (td : OrderData)
    (o : Order) (bk : Book) : (logExecution v toid td o bk).taker.shares = td.shares := rfl

@[simp]
theorem logExecution_taker_clientId (v : Int) (toid : Nat) (td : OrderData)
    (o : Order) (bk : Book) : (logExecution v toid td o bk).taker.clientId = td.clientId := rfl

@[simp]
theorem logExecution_maker_orderId (v : Int) (toid : Nat) (td : OrderData)
    (o : Order) (bk : Book) : (logExecution v toid td o bk).maker.orderId = o.orderId := rfl

@[simp]
theorem logExecution_maker_shares (v : Int) (toid : Nat) (td : OrderData)
    (o : Order) (bk : Book) : (logExecution v toid td o bk).maker.shares = o.shares := rfl

@[simp]
theorem logExecution_book_allOrders (v : Int) (toid : Nat) (td : OrderData)
    (o : Order) (bk : Book) : (logExecution v toid td o bk).book.allOrders = bk.allOrders := rfl

@[simp]
theorem logExecution_book_executions (v : Int) (toid : Nat) (td : OrderData)
    (o : Order) (bk : Book) :
    (logExecution v toid td o bk).book.executions
      = bk.executions ++ [mkExecution v toid td o bk] := rfl

@[simp]
theorem mkExecution_makerOrderId (v : Int) (toid : Nat) (td : OrderData)
    (o : Order) (bk : Book) : (mkExecution v toid td o bk).makerOrderId = o.orderId := rfl

@[simp]
theorem mkExecution_execPrice (v : Int) (toid : Nat) (td : OrderData)
    (o : Order) (bk : Book) : (mkExecution v toid td o bk).execPrice = o.limitPrice := rfl

@[simp]
theorem mkExecution_execSize (v : Int) (toid : Nat) (td : OrderData)
    (o : Order) (bk : Book) : (mkExecution v toid td o bk).execSize = v := rfl

@[simp]
theorem mkExecution_makerClientId (v : Int) (toid : Nat) (td : OrderData)
    (o : Order) (bk : Book) : (mkExecution v toid td o bk).makerClientId = td.clientId := rfl

@[simp]
theorem mkExecution_takerClientId (v : Int) (toid : Nat) (td : OrderData)
    (o : Order) (bk : Book) : (mkExecution v toid td o bk).takerClientId = o.clientId := rfl

@[simp]
theorem mkExecution_makerCumQty (v : Int) (toid : Nat) (td : OrderData)
    (o : Order) (bk : Book) :
    (mkExecution v toid td o bk).makerCumQty = o.executedQuantity + v := rfl

@[simp]
theorem mkExecution_takerCumQty (v : Int) (toid : Nat) (td : OrderData)
    (o : Order) (bk : Book) :
    (mkExecution v toid td o bk).takerCumQty = td.executedQuantity + v := rfl

@[simp]
theorem mkExecution_makerLeavesQty (v : Int) (toid : Nat) (td : OrderData)
    (o : Order) (bk : Book) :
    (mkExecution v toid td o bk).makerLeavesQty = o.shares - v := rfl

@[simp]
theorem mkExecution_takerLeavesQty (v : Int) (toid : Nat) (td : OrderData)
    (o : Order) (bk : Book) :
    (mkExecution v toid td o bk).takerLeavesQty = td.shares - v := rfl

@[simp]
theorem mkExecution_makerAvgPrice (v : Int) (toid : Nat) (td : OrderData)
    (o : Order) (bk : Book) :
    (mkExecution v toid td o bk).makerAvgPrice = newMakerAvgPrice v o := rfl

@[simp]
theorem mkExecution_takerAvgPrice (v : Int) (toid : Nat) (td : OrderData)
    (o : Order) (bk : Book) :
    (mkExecution v toid td o bk).takerAvgPrice = newTakerAvgPrice v td o := rfl

theorem mkExecution_makerExecType (v : Int) (toid : Nat) (td : OrderData)
    (o : Order) (bk : Book) :
    (mkExecution v toid td o bk).makerExecType
      = if v = o.shares then ExecutionType.FullFill else ExecutionType.PartialFill := rfl

theorem mkExecution_takerExecType (v : Int) (toid : Nat) (td : OrderData)
    (o : Order) (bk : Book) :
    (mkExecution v toid td o bk).takerExecType
      = if td.shares - v = 0 then ExecutionType.FullFill else ExecutionType.PartialFill := rfl

/-! ## The execution queue is append-only through the fill loop -/

theorem loop_execs_monotone (fuel : Nat) :
    ∀ (tcid toid : Nat) (chain : List Order) (sz tv : Int) (td : OrderData)
      (bk : Book) (lp : Int) (tl : Option Nat),
    ∃ t, (processFillLoop fuel tcid toid chain sz tv td bk lp tl).book.executions
        = bk.executions ++ t := by
  induction fuel with
  | zero =>
    intro tcid toid chain sz tv td bk lp tl
    exact ⟨[], by simp [processFillLoop]⟩
  | succ f ih =>
    intro tcid toid chain sz tv td bk lp tl
    cases chain with
    | nil => exact ⟨[], by simp [processFillLoop]⟩
    | cons o rest =>
      by_cases hg : sz = 0 ∨ td.shares = 0
      · exact ⟨[], by simp [processFillLoop, hg]⟩
      · by_cases hst : tcid = o.clientId
        · exact ⟨[], by simp [processFillLoop, hg, hst]⟩
        · by_cases hfull : o.shares ≤ min o.shares td.shares
          · obtain ⟨t, ht⟩ := ih tcid toid rest (decreaseSize sz)
              (tv - min o.shares td.shares)
              { (logExecution (min o.shares td.shares) toid td o bk).taker with
                  shares := (logExecution (min o.shares td.shares) toid td o bk).taker.shares - o.shares }
              (logExecution (min o.shares td.shares) toid td o bk).book lp tl
            refine ⟨mkExecution (min o.shares td.shares) toid td o bk :: t, ?_⟩
            simp only [processFillLoop, if_neg hg, if_neg hst, if_pos hfull]
            rw [ht]
            simp [logExecution, Book.addExecutionToQueue]
          · obtain ⟨t, ht⟩ := ih tcid toid
              ({ (logExecution (min o.shares td.shares) toid td o bk).maker with
                  shares := o.shares - min o.shares td.shares } :: rest) sz
              (tv - min o.shares td.shares)
              { (logExecution (min o.shares td.shares) toid td o bk).taker with
                  shares := (logExecution (min o.shares td.shares) toid td o bk).taker.shares - min o.shares td.shares }
              (logExecution (min o.shares td.shares) toid td o bk).book lp tl
            refine ⟨mkExecution (min o.shares td.shares) toid td o bk :: t, ?_⟩
            simp only [processFillLoop, if_neg hg, if_neg hst, if_neg hfull]
            rw [ht]
            simp [logExecution, Book.addExecutionToQueue]

/-! ## `processFill` never touches `tailOrder`, `limitPrice` or the OrderIndex -/

theorem loop_misc (fuel : Nat) :
    ∀ (tcid toid : Nat) (chain : List Order) (sz tv : Int) (td : OrderData)
      (bk : Book) (lp : Int) (tl : Option Nat),
    (processFillLoop fuel tcid toid chain sz tv td bk lp tl).limit.tailOrder = tl
    ∧ (processFillLoop fuel tcid toid chain sz tv td bk lp tl).limit.limitPrice = lp
    ∧ (processFillLoop fuel tcid toid chain sz tv td bk lp tl).book.allOrders = bk.allOrders := by
  induction fuel with
  | zero =>
    intro tcid toid chain sz tv td bk lp tl
    simp [processFillLoop]
  | succ f ih =>
    intro tcid toid chain sz tv td bk lp tl
    cases chain with
    | nil => simp [processFillLoop]
    | cons o rest =>
      by_cases hg : sz = 0 ∨ td.shares = 0
      · simp [processFillLoop, hg]
      · by_cases hst : tcid = o.clientId
        · simp [processFillLoop, hg, hst]
        · by_cases hfull : o.shares ≤ min o.shares td.shares
          · have h := ih tcid toid rest (decreaseSize sz)
              (tv - min o.shares td.shares)
              { (logExecution (min o.shares td.shares) toid td o bk).taker with
                  shares := (logExecution (min o.shares td.shares) toid td o bk).taker.shares - o.shares }
              (logExecution (min o.shares td.shares) toid td o bk).book lp tl
            simp only [processFillLoop, if_neg hg, if_neg hst, if_pos hfull]
            simpa using h
          · have h := ih tcid toid
              ({ (logExecution (min o.shares td.shares) toid td o bk).maker with
                  shares := o.shares - min o.shares td.shares } :: rest) sz
              (tv - min o.shares td.shares)
              { (logExecution (min o.shares td.shares) toid td o bk).taker with
                  shares := (logExecution (min o.shares td.shares) toid td o bk).taker.shares - min o.shares td.shares }
              (logExecution (min o.shares td.shares) toid td o bk).book lp tl
            simp only [processFillLoop, if_neg hg, if_neg hst, if_neg hfull]
            simpa using h

/-! ## Size and totalVolume track the queue through the fill loop -/

theorem sumShares_cons (x : Order) (l : List Order) :
    sumShares (x :: l) = x.shares + sumShares l := by
  simp [sumShares]

theorem sumShares_append (l l2 : List Order) :
    sumShares (l ++ l2) = sumShares l + sumShares l2 := by
  simp [sumShares]

theorem loop_size_tv (fuel : Nat) :
    ∀ (tcid toid : Nat) (chain : List Order) (sz tv : Int) (td : OrderData)
      (bk : Book) (lp : Int) (tl : Option Nat),
    sz = (chain.length : Int) → tv = sumShares chain →
    (processFillLoop fuel tcid toid chain sz tv td bk lp tl).limit.size
        = ((processFillLoop fuel tcid toid chain sz tv td bk lp tl).limit.headChain.length : Int)
    ∧ (processFillLoop fuel tcid toid chain sz tv td bk lp tl).limit.totalVolume
        = sumShares (processFillLoop fuel tcid toid chain sz tv td bk lp tl).limit.headChain := by
  induction fuel with
  | zero =>
    intro tcid toid chain sz tv td bk lp tl hsz htv
    simp [processFillLoop, hsz, htv]
  | succ f ih =>
    intro tcid toid chain sz tv td bk lp tl hsz htv
    cases chain with
    | nil => simp [processFillLoop, hsz, htv]
    | cons o rest =>
      by_cases hg : sz = 0 ∨ td.shares = 0
      · simp only [processFillLoop, if_pos hg]
        simp [hsz, htv]
      · by_cases hst : tcid = o.clientId
        · simp only [processFillLoop, if_neg hg, if_pos hst]
          simp [hsz, htv]
        · by_cases hfull : o.shares ≤ min o.shares td.shares
          · have hvol : min o.shares td.shares = o.shares :=
              le_antisymm (min_le_left _ _) hfull
            have hszpos : sz > 0 := by
              rw [hsz]
              exact_mod_cast Nat.succ_pos rest.length
            have h := ih tcid toid rest (decreaseSize sz)
              (tv - min o.shares td.shares)
              { (logExecution (min o.shares td.shares) toid td o bk).taker with
                  shares := (logExecution (min o.shares td.shares) toid td o bk).taker.shares - o.shares }
              (logExecution (min o.shares td.shares) toid td o bk).book lp tl
              (by
                rw [decreaseSize, if_pos hszpos, hsz]
                simp only [List.length_cons]
                push_cast
                ring)
              (by
                rw [hvol, htv, sumShares_cons]
                ring)
            simp only [processFillLoop, if_neg hg, if_neg hst, if_pos hfull]
            exact h
          · have h := ih tcid toid
              ({ (logExecution (min o.shares td.shares) toid td o bk).maker with
                  shares := o.shares - min o.shares td.shares } :: rest) sz
              (tv - min o.shares td.shares)
              { (logExecution (min o.shares td.shares) toid td o bk).taker with
                  shares := (logExecution (min o.shares td.shares) toid td o bk).taker.shares - min o.shares td.shares }
              (logExecution (min o.shares td.shares) toid td o bk).book lp tl
              (by rw [hsz]; simp)
              (by
                rw [htv, sumShares_cons, sumShares_cons]
                simp
                ring)
            simp only [processFillLoop, if_neg hg, if_neg hst, if_neg hfull]
            exact h

/-! ## Characterization of a complete fill walk (no self-trade) -/

theorem loop_exit_of_shares_zero (f : Nat) (tcid toid : Nat) (o : Order)
    (rest : List Order) (sz tv : Int) (td : OrderData) (bk : Book) (lp : Int)
    (tl : Option Nat) (h : td.shares = 0) :
    processFillLoop (f + 1) tcid toid (o :: rest) sz tv td bk lp tl
      = { limit := { limitPrice := lp, size := sz, totalVolume := tv,
                     headChain := o :: rest, tailOrder := tl },
          taker := td, book := bk, selfTradeError := false, fuelExhausted := false } := by
  simp [processFillLoop, h]

theorem loop_run_spec (fuel : Nat) :
    ∀ (tcid toid : Nat) (chain : List Order) (sz tv : Int) (td : OrderData)
      (bk : Book) (lp : Int) (tl : Option Nat),
    chain.length < fuel →
    sz = (chain.length : Int) →
    (∀ o ∈ chain, o.clientId ≠ tcid) →
    (processFillLoop fuel tcid toid chain sz tv td bk lp tl).fuelExhausted = false
    ∧ (processFillLoop fuel tcid toid chain sz tv td bk lp tl).selfTradeError = false
    ∧ ((processFillLoop fuel tcid toid chain sz tv td bk lp tl).taker.shares = 0
        ∨ (processFillLoop fuel tcid toid chain sz tv td bk lp tl).limit.headChain = [])
    ∧ ∃ m, m ≤ chain.length
        ∧ (processFillLoop fuel tcid toid chain sz tv td bk lp tl).book.executions.map Execution.makerOrderId
            = bk.executions.map Execution.makerOrderId ++ (chain.map Order.orderId).take m
        ∧ ∃ j, (processFillLoop fuel tcid toid chain sz tv td bk lp tl).limit.headChain.map Order.orderId
            = (chain.map Order.orderId).drop j := by
  induction fuel with
  | zero =>
    intro tcid toid chain sz tv td bk lp tl h1 h2 h3
    exact absurd h1 (Nat.not_lt_zero _)
  | succ f ih =>
    intro tcid toid chain sz tv td bk lp tl h1 h2 h3
    cases chain with
    | nil =>
      have hstep : processFillLoop (f + 1) tcid toid [] sz tv td bk lp tl
          = { limit := { limitPrice := lp, size := sz, totalVolume := tv,
                         headChain := [], tailOrder := tl },
              taker := td, book := bk, selfTradeError := false, fuelExhausted := false } := rfl
      rw [hstep]
      exact ⟨rfl, rfl, Or.inr rfl, 0, Nat.zero_le _, by simp, 0, by simp⟩
    | cons o rest =>
      by_cases hg : sz = 0 ∨ td.shares = 0
      · have hszne : sz ≠ 0 := by
          rw [h2]
          simp only [List.length_cons]
          push_cast
          omega
        have hts : td.shares = 0 := hg.resolve_left hszne
        have hstep : processFillLoop (f + 1) tcid toid (o :: rest) sz tv td bk lp tl
            = { limit := { limitPrice := lp, size := sz, totalVolume := tv,
                           headChain := o :: rest, tailOrder := tl },
                taker := td, book := bk, selfTradeError := false, fuelExhausted := false } := by
          simp only [processFillLoop]
          rw [if_pos hg]
        rw [hstep]
        exact ⟨rfl, rfl, Or.inl hts, 0, Nat.zero_le _, by simp, 0, by simp⟩
      · by_cases hst : tcid = o.clientId
        · exact absurd hst.symm (h3 o (List.mem_cons_self o rest))
        · by_cases hfull : o.shares ≤ min o.shares td.shares
          · -- full fill of the head maker; recurse on the tail
            have hszpos : sz > 0 := by
              rw [h2]
              exact_mod_cast Nat.succ_pos rest.length
            have hf : rest.length < f := by
              simp only [List.length_cons] at h1
              omega
            have hsz' : decreaseSize sz = ((rest.length : Nat) : Int) := by
              rw [decreaseSize, if_pos hszpos, h2]
              simp only [List.length_cons]
              push_cast
              ring
            obtain ⟨hfe, hse, hstop, m, hmle, hexec, j, hj⟩ := ih tcid toid rest
              (decreaseSize sz) (tv - min o.shares td.shares)
              { (logExecution (min o.shares td.shares) toid td o bk).taker with
                  shares := (logExecution (min o.shares td.shares) toid td o bk).taker.shares - o.shares }
              (logExecution (min o.shares td.shares) toid td o bk).book lp tl
              hf hsz' (fun o' ho' => h3 o' (List.mem_cons_of_mem _ ho'))
            have hstep : processFillLoop (f + 1) tcid toid (o :: rest) sz tv td bk lp tl
                = processFillLoop f tcid toid rest
                    (decreaseSize sz) (tv - min o.shares td.shares)
                    { (logExecution (min o.shares td.shares) toid td o bk).taker with
                        shares := (logExecution (min o.shares td.shares) toid td o bk).taker.shares - o.shares }
                    (logExecution (min o.shares td.shares) toid td o bk).book lp tl := by
              simp only [processFillLoop, if_neg hg, if_neg hst, if_pos hfull]
            rw [hstep]
            refine ⟨hfe, hse, hstop, m + 1, by simpa using Nat.succ_le_succ hmle, ?_, j + 1, ?_⟩
            · rw [hexec]
              simp [List.append_assoc]
            · rw [hj]
              simp
          · -- partial fill of the head maker: the taker is exhausted and the
            -- next guard check terminates the walk
            have hts_le : td.shares ≤ o.shares := by
              by_contra hc
              push_neg at hc
              exact hfull (by rw [min_eq_left hc.le])
            have hvolts : min o.shares td.shares = td.shares := min_eq_right hts_le
            cases f with
            | zero =>
              simp only [List.length_cons] at h1
              omega
            | succ f2 =>
              have hcall := loop_exit_of_shares_zero f2 tcid toid
                ({ (logExecution (min o.shares td.shares) toid td o bk).maker with
                    shares := o.shares - min o.shares td.shares }) rest sz
                (tv - min o.shares td.shares)
                ({ (logExecution (min o.shares td.shares) toid td o bk).taker with
                    shares := (logExecution (min o.shares td.shares) toid td o bk).taker.shares - min o.shares td.shares })
                (logExecution (min o.shares td.shares) toid td o bk).book lp tl
                (by simp [hvolts])
              have hstep : processFillLoop (f2 + 1 + 1) tcid toid (o :: rest) sz tv td bk lp tl
                  = { limit := { limitPrice := lp, size := sz,
                                 totalVolume := tv - min o.shares td.shares,
                                 headChain := { (logExecution (min o.shares td.shares) toid td o bk).maker with
                                     shares := o.shares - min o.shares td.shares } :: rest,
                                 tailOrder := tl },
                      taker := { (logExecution (min o.shares td.shares) toid td o bk).taker with
                          shares := (logExecution (min o.shares td.shares) toid td o bk).taker.shares - min o.shares td.shares },
                      book := (logExecution (min o.shares td.shares) toid td o bk).book,
                      selfTradeError := false, fuelExhausted := false } := by
                simp only [processFillLoop, if_neg hg, if_neg hst, if_neg hfull]
                exact hcall
              rw [hstep]
              refine ⟨rfl, rfl, Or.inl (by simp [hvolts]), 1, by simp, ?_, 0, ?_⟩
              · simp
              · simp

/-! ## Termination: fuel `|chain| + 1` always suffices -/

theorem loop_no_fuelExhausted (fuel : Nat) :
    ∀ (tcid toid : Nat) (chain : List Order) (sz tv : Int) (td : OrderData)
      (bk : Book) (lp : Int) (tl : Option Nat),
    chain.length < fuel →
    (processFillLoop fuel tcid toid chain sz tv td bk lp tl).fuelExhausted = false := by
  induction fuel with
  | zero =>
    intro tcid toid chain sz tv td bk lp tl h1
    exact absurd h1 (Nat.not_lt_zero _)
  | succ f ih =>
    intro tcid toid chain sz tv td bk lp tl h1
    cases chain with
    | nil => rfl
    | cons o rest =>
      by_cases hg : sz = 0 ∨ td.shares = 0
      · have hstep : processFillLoop (f + 1) tcid toid (o :: rest) sz tv td bk lp tl
            = { limit := { limitPrice := lp, size := sz, totalVolume := tv,
                           headChain := o :: rest, tailOrder := tl },
                taker := td, book := bk, selfTradeError := false, fuelExhausted := false } := by
          simp only [processFillLoop]
          rw [if_pos hg]
        rw [hstep]
      · by_cases hst : tcid = o.clientId
        · have hstep : processFillLoop (f + 1) tcid toid (o :: rest) sz tv td bk lp tl
              = { limit := { limitPrice := lp, size := sz, totalVolume := tv,
                             headChain := o :: rest, tailOrder := tl },
                  taker := td, book := bk, selfTradeError := true, fuelExhausted := false } := by
            simp only [processFillLoop]
            rw [if_neg hg, if_pos hst]
          rw [hstep]
        · by_cases hfull : o.shares ≤ min o.shares td.shares
          · have hstep : processFillLoop (f + 1) tcid toid (o :: rest) sz tv td bk lp tl
                = processFillLoop f tcid toid rest
                    (decreaseSize sz) (tv - min o.shares td.shares)
                    { (logExecution (min o.shares td.shares) toid td o bk).taker with
                        shares := (logExecution (min o.shares td.shares) toid td o bk).taker.shares - o.shares }
                    (logExecution (min o.shares td.shares) toid td o bk).book lp tl := by
              simp only [processFillLoop, if_neg hg, if_neg hst, if_pos hfull]
            rw [hstep]
            exact ih tcid toid rest _ _ _ _ lp tl (by simp only [List.length_cons] at h1; omega)
          · have hts_le : td.shares ≤ o.shares := by
              by_contra hc
              push_neg at hc
              exact hfull (by rw [min_eq_left hc.le])
            have hvolts : min o.shares td.shares = td.shares := min_eq_right hts_le
            cases f with
            | zero =>
              simp only [List.length_cons] at h1
              omega
            | succ f2 =>
              have hcall := loop_exit_of_shares_zero f2 tcid toid
                ({ (logExecution (min o.shares td.shares) toid td o bk).maker with
                    shares := o.shares - min o.shares td.shares }) rest sz
                (tv - min o.shares td.shares)
                ({ (logExecution (min o.shares td.shares) toid td o bk).taker with
                    shares := (logExecution (min o.shares td.shares) toid td o bk).taker.shares - min o.shares td.shares })
                (logExecution (min o.shares td.shares) toid td o bk).book lp tl
                (by simp [hvolts])
              have hstep : processFillLoop (f2 + 1 + 1) tcid toid (o :: rest) sz tv td bk lp tl
                  = processFillLoop (f2 + 1) tcid toid
                      ({ (logExecution (min o.shares td.shares) toid td o bk).maker with
                          shares := o.shares - min o.shares td.shares } :: rest) sz
                      (tv - min o.shares td.shares)
                      { (logExecution (min o.shares td.shares) toid td o bk).taker with
                          shares := (logExecution (min o.shares td.shares) toid td o bk).taker.shares - min o.shares td.shares }
                      (logExecution (min o.shares td.shares) toid td o bk).book lp tl := by
                simp only [processFillLoop, if_neg hg, if_neg hst, if_neg hfull]
              rw [hstep, hcall]

theorem loop_fuel_stable (f : Nat) :
    ∀ (g : Nat) (tcid toid : Nat) (chain : List Order) (sz tv : Int)
      (td : OrderData) (bk : Book) (lp : Int) (tl : Option Nat),
    chain.length < f → chain.length < g →
    processFillLoop f tcid toid chain sz tv td bk lp tl
      = processFillLoop g tcid toid chain sz tv td bk lp tl := by
  induction f with
  | zero =>
    intro g tcid toid chain sz tv td bk lp tl h1 h2
    exact absurd h1 (Nat.not_lt_zero _)
  | succ f ih =>
    intro g tcid toid chain sz tv td bk lp tl h1 h2
    cases g with
    | zero => exact absurd h2 (Nat.not_lt_zero _)
    | succ g =>
      cases chain with
      | nil => rfl
      | cons o rest =>
        by_cases hg : sz = 0 ∨ td.shares = 0
        · show (if sz = 0 ∨ td.shares = 0 then _ else _) = (if sz = 0 ∨ td.shares = 0 then _ else _)
          rw [if_pos hg, if_pos hg]
        · by_cases hst : tcid = o.clientId
          · show (if sz = 0 ∨ td.shares = 0 then _ else _) = (if sz = 0 ∨ td.shares = 0 then _ else _)
            rw [if_neg hg, if_neg hg, if_pos hst, if_pos hst]
          · by_cases hfull : o.shares ≤ min o.shares td.shares
            · have hstepL : processFillLoop (f + 1) tcid toid (o :: rest) sz tv td bk lp tl
                  = processFillLoop f tcid toid rest
                      (decreaseSize sz) (tv - min o.shares td.shares)
                      { (logExecution (min o.shares td.shares) toid td o bk).taker with
                          shares := (logExecution (min o.shares td.shares) toid td o bk).taker.shares - o.shares }
                      (logExecution (min o.shares td.shares) toid td o bk).book lp tl := by
                simp only [processFillLoop, if_neg hg, if_neg hst, if_pos hfull]
              have hstepR : processFillLoop (g + 1) tcid toid (o :: rest) sz tv td bk lp tl
                  = processFillLoop g tcid toid rest
                      (decreaseSize sz) (tv - min o.shares td.shares)
                      { (logExecution (min o.shares td.shares) toid td o bk).taker with
                          shares := (logExecution (min o.shares td.shares) toid td o bk).taker.shares - o.shares }
                      (logExecution (min o.shares td.shares) toid td o bk).book lp tl := by
                simp only [processFillLoop, if_neg hg, if_neg hst, if_pos hfull]
              rw [hstepL, hstepR]
              exact ih g tcid toid rest _ _ _ _ lp tl
                (by simp only [List.length_cons] at h1; omega)
                (by simp only [List.length_cons] at h2; omega)
            · have hts_le : td.shares ≤ o.shares := by
                by_contra hc
                push_neg at hc
                exact hfull (by rw [min_eq_left hc.le])
              have hvolts : min o.shares td.shares = td.shares := min_eq_right hts_le
              cases f with
              | zero =>
                simp only [List.length_cons] at h1
                omega
              | succ f2 =>
                cases g with
                | zero =>
                  simp only [List.length_cons] at h2
                  omega
                | succ g2 =>
                  have hcallL := loop_exit_of_shares_zero f2 tcid toid
                    ({ (logExecution (min o.shares td.shares) toid td o bk).maker with
                        shares := o.shares - min o.shares td.shares }) rest sz
                    (tv - min o.shares td.shares)
                    ({ (logExecution (min o.shares td.shares) toid td o bk).taker with
                        shares := (logExecution (min o.shares td.shares) toid td o bk).taker.shares - min o.shares td.shares })
                    (logExecution (min o.shares td.shares) toid td o bk).book lp tl
                    (by simp [hvolts])
                  have hcallR := loop_exit_of_shares_zero g2 tcid toid
                    ({ (logExecution (min o.shares td.shares) toid td o bk).maker with
                        shares := o.shares - min o.shares td.shares }) rest sz
                    (tv - min o.shares td.shares)
                    ({ (logExecution (min o.shares td.shares) toid td o bk).taker with
                        shares := (logExecution (min o.shares td.shares) toid td o bk).taker.shares - min o.shares td.shares })
                    (logExecution (min o.shares td.shares) toid td o bk).book lp tl
                    (by simp [hvolts])
                  have hstepL : processFillLoop (f2 + 1 + 1) tcid toid (o :: rest) sz tv td bk lp tl
                      = processFillLoop (f2 + 1) tcid toid
                          ({ (logExecution (min o.shares td.shares) toid td o bk).maker with
                              shares := o.shares - min o.shares td.shares } :: rest) sz
                          (tv - min o.shares td.shares)
                          { (logExecution (min o.shares td.shares) toid td o bk).taker with
                              shares := (logExecution (min o.shares td.shares) toid td o bk).taker.shares - min o.shares td.shares }
                          (logExecution (min o.shares td.shares) toid td o bk).book lp tl := by
                    simp only [processFillLoop, if_neg hg, if_neg hst, if_neg hfull]
                  have hstepR : processFillLoop (g2 + 1 + 1) tcid toid (o :: rest) sz tv td bk lp tl
                      = processFillLoop (g2 + 1) tcid toid
                          ({ (logExecution (min o.shares td.shares) toid td o bk).maker with
                              shares := o.shares - min o.shares td.shares } :: rest) sz
                          (tv - min o.shares td.shares)
                          { (logExecution (min o.shares td.shares) toid td o bk).taker with
                              shares := (logExecution (min o.shares td.shares) toid td o bk).taker.shares - min o.shares td.shares }
                          (logExecution (min o.shares td.shares) toid td o bk).book lp tl := by
                    simp only [processFillLoop, if_neg hg, if_neg hst, if_neg hfull]
                  rw [hstepL, hstepR, hcallL, hcallR]


/-! ## A self-trade mid-walk: earlier fills retained, offending maker untouched -/

theorem sumShares_nonneg (l : List Order) (h : ∀ o ∈ l, 0 < o.shares) :
    0 ≤ sumShares l := by
  refine List.sum_nonneg ?_
  intro x hx
  obtain ⟨o, ho, rfl⟩ := List.mem_map.1 hx
  exact (h o ho).le

theorem loop_selftrade_run (pre : List Order) :
    ∀ (fuel : Nat) (tcid toid : Nat) (bad : Order) (rest : List Order)
      (sz tv : Int) (td : OrderData) (bk : Book) (lp : Int) (tl : Option Nat),
    pre.length < fuel →
    sz = (((pre ++ bad :: rest).length : Nat) : Int) →
    (∀ o ∈ pre, o.clientId ≠ tcid) →
    (∀ o ∈ pre, 0 < o.shares) →
    bad.clientId = tcid →
    sumShares pre < td.shares →
    (processFillLoop fuel tcid toid (pre ++ bad :: rest) sz tv td bk lp tl).selfTradeError = true
    ∧ (processFillLoop fuel tcid toid (pre ++ bad :: rest) sz tv td bk lp tl).fuelExhausted = false
    ∧ (processFillLoop fuel tcid toid (pre ++ bad :: rest) sz tv td bk lp tl).limit.headChain = bad :: rest
    ∧ (processFillLoop fuel tcid toid (pre ++ bad :: rest) sz tv td bk lp tl).taker.shares
        = td.shares - sumShares pre
    ∧ (processFillLoop fuel tcid toid (pre ++ bad :: rest) sz tv td bk lp tl).book.executions.map Execution.makerOrderId
        = bk.executions.map Execution.makerOrderId ++ pre.map Order.orderId
    ∧ (processFillLoop fuel tcid toid (pre ++ bad :: rest) sz tv td bk lp tl).limit.size
        = sz - (pre.length : Int)
    ∧ (processFillLoop fuel tcid toid (pre ++ bad :: rest) sz tv td bk lp tl).limit.totalVolume
        = tv - sumShares pre := by
  induction pre with
  | nil =>
    intro fuel tcid toid bad rest sz tv td bk lp tl hfu hsz hpre hpos hbad hts
    cases fuel with
    | zero => exact absurd hfu (Nat.not_lt_zero _)
    | succ f =>
      have htdpos : 0 < td.shares := by
        have h0 : sumShares ([] : List Order) = 0 := by simp [sumShares]
        rw [h0] at hts
        exact hts
      have hszne : sz ≠ 0 := by
        rw [hsz]
        simp only [List.nil_append, List.length_cons]
        push_cast
        omega
      have hg : ¬(sz = 0 ∨ td.shares = 0) := by
        push_neg
        exact ⟨hszne, by omega⟩
      have hstep : processFillLoop (f + 1) tcid toid ([] ++ bad :: rest) sz tv td bk lp tl
          = { limit := { limitPrice := lp, size := sz, totalVolume := tv,
                         headChain := bad :: rest, tailOrder := tl },
              taker := td, book := bk, selfTradeError := true, fuelExhausted := false } := by
        simp only [List.nil_append, processFillLoop]
        rw [if_neg hg, if_pos hbad.symm]
      rw [hstep]
      refine ⟨rfl, rfl, rfl, ?_, ?_, ?_, ?_⟩
      · simp [sumShares]
      · simp
      · simp
      · simp [sumShares]
  | cons p pre ih =>
    intro fuel tcid toid bad rest sz tv td bk lp tl hfu hsz hpre hpos hbad hts
    cases fuel with
    | zero => exact absurd hfu (Nat.not_lt_zero _)
    | succ f =>
      have hppos : 0 < p.shares := hpos p (List.mem_cons_self p pre)
      have hpre' : ∀ o ∈ pre, o.clientId ≠ tcid :=
        fun o ho => hpre o (List.mem_cons_of_mem _ ho)
      have hpos' : ∀ o ∈ pre, 0 < o.shares :=
        fun o ho => hpos o (List.mem_cons_of_mem _ ho)
      have hsum : sumShares (p :: pre) = p.shares + sumShares pre := sumShares_cons p pre
      have hsumpre : 0 ≤ sumShares pre := sumShares_nonneg pre hpos'
      have hple : p.shares ≤ td.shares := by
        rw [hsum] at hts
        omega
      have hszne : sz ≠ 0 := by
        rw [hsz]
        simp only [List.cons_append, List.length_cons]
        push_cast
        omega
      have htdne : td.shares ≠ 0 := by
        rw [hsum] at hts
        omega
      have hg : ¬(sz = 0 ∨ td.shares = 0) := by
        push_neg
        exact ⟨hszne, htdne⟩
      have hst : ¬(tcid = p.clientId) :=
        fun h => (hpre p (List.mem_cons_self p pre)) h.symm
      have hvol : min p.shares td.shares = p.shares := min_eq_left hple
      have hfull : p.shares ≤ min p.shares td.shares := by
        rw [hvol]
      have hszpos : sz > 0 := by
        rw [hsz]
        simp only [List.cons_append, List.length_cons]
        push_cast
        omega
      have hstep : processFillLoop (f + 1) tcid toid ((p :: pre) ++ bad :: rest) sz tv td bk lp tl
          = processFillLoop f tcid toid (pre ++ bad :: rest)
              (decreaseSize sz) (tv - min p.shares td.shares)
              { (logExecution (min p.shares td.shares) toid td p bk).taker with
                  shares := (logExecution (min p.shares td.shares) toid td p bk).taker.shares - p.shares }
              (logExecution (min p.shares td.shares) toid td p bk).book lp tl := by
        simp only [List.cons_append, processFillLoop, if_neg hg, if_neg hst, if_pos hfull]
        rfl
      have hsz' : decreaseSize sz = (((pre ++ bad :: rest).length : Nat) : Int) := by
        rw [decreaseSize, if_pos hszpos, hsz]
        simp only [List.cons_append, List.length_cons]
        push_cast
        ring
      have hts' : sumShares pre
          < ({ (logExecution (min p.shares td.shares) toid td p bk).taker with
                shares := (logExecution (min p.shares td.shares) toid td p bk).taker.shares - p.shares } : OrderData).shares := by
        simp only [logExecution_taker_shares]
        rw [hsum] at hts
        omega
      obtain ⟨h1, h2, h3, h4, h5, h6, h7⟩ := ih f tcid toid bad rest
        (decreaseSize sz) (tv - min p.shares td.shares)
        { (logExecution (min p.shares td.shares) toid td p bk).taker with
            shares := (logExecution (min p.shares td.shares) toid td p bk).taker.shares - p.shares }
        (logExecution (min p.shares td.shares) toid td p bk).book lp tl
        (by simp only [List.length_cons] at hfu; omega) hsz' hpre' hpos' hbad hts'
      rw [hstep]
      refine ⟨h1, h2, h3, ?_, ?_, ?_, ?_⟩
      · rw [h4]
        simp only [logExecution_taker_shares]
        rw [hsum]
        ring
      · rw [h5]
        simp [List.append_assoc]
      · rw [h6, hsz']
        rw [hsz]
        simp only [List.cons_append, List.length_cons]
        push_cast
        ring
      · rw [h7, hvol, hsum]
        ring


/-! ## One step of addOrderToLimit, and the head execution of one loop iteration -/

theorem addOrderToLimit_spec (L : LimitState) (od : OrderData) (bk : Book)
    (oid : Nat) :
    (addOrderToLimit L od bk oid).1.headChain = L.headChain ++ [mkOrder od oid]
    ∧ (addOrderToLimit L od bk oid).1.size = L.size + 1
    ∧ (addOrderToLimit L od bk oid).1.totalVolume = L.totalVolume + od.shares
    ∧ (addOrderToLimit L od bk oid).1.tailOrder = some oid
    ∧ (addOrderToLimit L od bk oid).1.limitPrice = L.limitPrice
    ∧ (addOrderToLimit L od bk oid).2 = bk.addOrderToAllOrders oid := by
  by_cases hemp : L.headChain.isEmpty
  · have hnil : L.headChain = [] := List.isEmpty_iff.1 hemp
    simp [addOrderToLimit, hemp, hnil]
  · simp [addOrderToLimit, hemp]

theorem loop_one_step_exec (f : Nat) (tcid toid : Nat) (o : Order)
    (rest : List Order) (sz tv : Int) (td : OrderData) (bk : Book) (lp : Int)
    (tl : Option Nat) (hsz : ¬sz = 0) (hts : ¬td.shares = 0)
    (hself : ¬tcid = o.clientId) :
    ∃ t, (processFillLoop (f + 1) tcid toid (o :: rest) sz tv td bk lp tl).book.executions
        = bk.executions ++ mkExecution (min o.shares td.shares) toid td o bk :: t := by
  have hg : ¬(sz = 0 ∨ td.shares = 0) := by
    push_neg
    exact ⟨hsz, hts⟩
  by_cases hfull : o.shares ≤ min o.shares td.shares
  · have hstep : processFillLoop (f + 1) tcid toid (o :: rest) sz tv td bk lp tl
        = processFillLoop f tcid toid rest
            (decreaseSize sz) (tv - min o.shares td.shares)
            { (logExecution (min o.shares td.shares) toid td o bk).taker with
                shares := (logExecution (min o.shares td.shares) toid td o bk).taker.shares - o.shares }
            (logExecution (min o.shares td.shares) toid td o bk).book lp tl := by
      simp only [processFillLoop, if_neg hg, if_neg hself, if_pos hfull]
    obtain ⟨t, ht⟩ := loop_execs_monotone f tcid toid rest
      (decreaseSize sz) (tv - min o.shares td.shares)
      { (logExecution (min o.shares td.shares) toid td o bk).taker with
          shares := (logExecution (min o.shares td.shares) toid td o bk).taker.shares - o.shares }
      (logExecution (min o.shares td.shares) toid td o bk).book lp tl
    refine ⟨t, ?_⟩
    rw [hstep, ht]
    simp [List.append_assoc]
  · have hstep : processFillLoop (f + 1) tcid toid (o :: rest) sz tv td bk lp tl
        = processFillLoop f tcid toid
            ({ (logExecution (min o.shares td.shares) toid td o bk).maker with
                shares := o.shares - min o.shares td.shares } :: rest) sz
            (tv - min o.shares td.shares)
            { (logExecution (min o.shares td.shares) toid td o bk).taker with
                shares := (logExecution (min o.shares td.shares) toid td o bk).taker.shares - min o.shares td.shares }
            (logExecution (min o.shares td.shares) toid td o bk).book lp tl := by
      simp only [processFillLoop, if_neg hg, if_neg hself, if_neg hfull]
    obtain ⟨t, ht⟩ := loop_execs_monotone f tcid toid
      ({ (logExecution (min o.shares td.shares) toid td o bk).maker with
          shares := o.shares - min o.shares td.shares } :: rest) sz
      (tv - min o.shares td.shares)
      { (logExecution (min o.shares td.shares) toid td o bk).taker with
          shares := (logExecution (min o.shares td.shares) toid td o bk).taker.shares - min o.shares td.shares }
      (logExecution (min o.shares td.shares) toid td o bk).book lp tl
    refine ⟨t, ?_⟩
    rw [hstep, ht]
    simp [List.append_assoc]


/-! ## Claims -/

/-- C1.  The claim states that every Execution's `makerClientId` equals
the resting maker's clientId and `takerClientId` the taker's.  The code
does the opposite: at Limit.cpp lines 117-118 the call site passes
`takerData.clientId` into the `makerClientId` position and
`makerOrder->getClientId()` into the `takerClientId` position (the only
maker/taker pair passed taker-first; every commented argument pair is
maker-first, in the spec §3 field order).  Concretely: the maker resting
at the Limit is client 1's order and the taker is client 2's intent, yet
the produced Execution carries `makerClientId = 2` and
`takerClientId = 1`. -/
theorem C1_maker_taker_clientIds_swapped :
    s1.1.headChain.map Order.clientId = [1]
    ∧ odSell2.clientId = 2
    ∧ (processFill s1.1 odSell2 8 s1.2).book.executions.map
        (fun e => (e.makerClientId, e.takerClientId)) = [(2, 1)] := by
  decide

/-- C2.  A fill with a positive-shares taker walks the Limit's FIFO
queue strictly head to tail: the makers matched are exactly the first
`m` resting orders, in order, for some `m`; the residual queue is a tail
(`drop j`) of the original queue; and the walk stops exactly when the
taker's shares reach 0 or the Limit runs out of orders (the final state
satisfies the disjunction, and the loop guard at Limit.cpp line 54
cannot stop earlier). -/
theorem C2_fifo_walk (L : LimitState) (td : OrderData) (oid : Nat) (bk : Book)
    (hsz : L.size = ((L.headChain.length : Nat) : Int))
    (hpos : 0 < td.shares)
    (hnost : ∀ o ∈ L.headChain, o.clientId ≠ td.clientId) :
    (processFill L td oid bk).fuelExhausted = false
    ∧ (processFill L td oid bk).selfTradeError = false
    ∧ ((processFill L td oid bk).taker.shares = 0
        ∨ (processFill L td oid bk).limit.headChain = [])
    ∧ ∃ m, m ≤ L.headChain.length
        ∧ (processFill L td oid bk).book.executions.map Execution.makerOrderId
            = bk.executions.map Execution.makerOrderId
                ++ (L.headChain.map Order.orderId).take m
        ∧ ∃ j, (processFill L td oid bk).limit.headChain.map Order.orderId
            = (L.headChain.map Order.orderId).drop j := by
  exact loop_run_spec (L.headChain.length + 1) td.clientId oid L.headChain L.size
    L.totalVolume td bk L.limitPrice L.tailOrder (Nat.lt_succ_self _) hsz hnost

theorem C2_fifo_walk_witness :
    (s2.1.size = ((s2.1.headChain.length : Nat) : Int)
      ∧ 0 < odSell2big.shares
      ∧ (∀ o ∈ s2.1.headChain, o.clientId ≠ odSell2big.clientId))
    ∧ ((processFill s2.1 odSell2big 10 s2.2).fuelExhausted = false
      ∧ (processFill s2.1 odSell2big 10 s2.2).selfTradeError = false
      ∧ ((processFill s2.1 odSell2big 10 s2.2).taker.shares = 0
          ∨ (processFill s2.1 odSell2big 10 s2.2).limit.headChain = [])
      ∧ ∃ m, m ≤ s2.1.headChain.length
          ∧ (processFill s2.1 odSell2big 10 s2.2).book.executions.map Execution.makerOrderId
              = s2.2.executions.map Execution.makerOrderId
                  ++ (s2.1.headChain.map Order.orderId).take m
          ∧ ∃ j, (processFill s2.1 odSell2big 10 s2.2).limit.headChain.map Order.orderId
              = (s2.1.headChain.map Order.orderId).drop j) :=
  ⟨⟨by decide, by decide, by decide⟩,
    C2_fifo_walk s2.1 odSell2big 10 s2.2 (by decide) (by decide) (by decide)⟩

/-- C3.  If the walk reaches a resting maker with the taker's own
clientId, `processFill` raises the self-trade error (Limit.cpp lines
56-58) before logging any Execution against that maker and before any
state mutation of that iteration: the offending maker is still at the
head of the residual queue, unchanged; the taker's shares reflect only
the earlier full fills; and the Book's execution queue holds exactly the
executions of the earlier iterations (against the `pre` prefix), all
retained. -/
theorem C3_selftrade_aborts_iteration (L : LimitState) (td : OrderData)
    (oid : Nat) (bk : Book) (pre : List Order) (bad : Order) (rest : List Order)
    (hchain : L.headChain = pre ++ bad :: rest)
    (hsz : L.size = ((L.headChain.length : Nat) : Int))
    (hpre : ∀ o ∈ pre, o.clientId ≠ td.clientId)
    (hpos : ∀ o ∈ pre, 0 < o.shares)
    (hbad : bad.clientId = td.clientId)
    (hts : sumShares pre < td.shares) :
    (processFill L td oid bk).selfTradeError = true
    ∧ (processFill L td oid bk).limit.headChain = bad :: rest
    ∧ (processFill L td oid bk).taker.shares = td.shares - sumShares pre
    ∧ (processFill L td oid bk).book.executions.map Execution.makerOrderId
        = bk.executions.map Execution.makerOrderId ++ pre.map Order.orderId
    ∧ (processFill L td oid bk).limit.size = L.size - (pre.length : Int)
    ∧ (processFill L td oid bk).limit.totalVolume = L.totalVolume - sumShares pre := by
  have hpf : processFill L td oid bk
      = processFillLoop ((pre ++ bad :: rest).length + 1) td.clientId oid
          (pre ++ bad :: rest) L.size L.totalVolume td bk L.limitPrice L.tailOrder := by
    simp only [processFill, hchain]
  have hlen : pre.length < (pre ++ bad :: rest).length + 1 := by
    simp [List.length_append]
    omega
  have hsz2 : L.size = (((pre ++ bad :: rest).length : Nat) : Int) := by
    rw [hsz, hchain]
  obtain ⟨h1, h2, h3, h4, h5, h6, h7⟩ := loop_selftrade_run pre
    ((pre ++ bad :: rest).length + 1) td.clientId oid bad rest
    L.size L.totalVolume td bk L.limitPrice L.tailOrder hlen hsz2 hpre hpos hbad hts
  rw [hpf]
  exact ⟨h1, h3, h4, h5, h6, h7⟩

theorem C3_selftrade_aborts_iteration_witness :
    (s3.1.headChain = [mkOrder odBuy1 7] ++ mkOrder odBuy2 9 :: []
      ∧ s3.1.size = ((s3.1.headChain.length : Nat) : Int)
      ∧ (∀ o ∈ [mkOrder odBuy1 7], o.clientId ≠ odSell2big.clientId)
      ∧ (∀ o ∈ [mkOrder odBuy1 7], 0 < o.shares)
      ∧ (mkOrder odBuy2 9).clientId = odSell2big.clientId
      ∧ sumShares [mkOrder odBuy1 7] < odSell2big.shares)
    ∧ ((processFill s3.1 odSell2big 10 s3.2).selfTradeError = true
      ∧ (processFill s3.1 odSell2big 10 s3.2).limit.headChain = mkOrder odBuy2 9 :: []
      ∧ (processFill s3.1 odSell2big 10 s3.2).taker.shares
          = odSell2big.shares - sumShares [mkOrder odBuy1 7]
      ∧ (processFill s3.1 odSell2big 10 s3.2).book.executions.map Execution.makerOrderId
          = s3.2.executions.map Execution.makerOrderId ++ [mkOrder odBuy1 7].map Order.orderId
      ∧ (processFill s3.1 odSell2big 10 s3.2).limit.size
          = s3.1.size - (([mkOrder odBuy1 7].length : Nat) : Int)
      ∧ (processFill s3.1 odSell2big 10 s3.2).limit.totalVolume
          = s3.1.totalVolume - sumShares [mkOrder odBuy1 7]) :=
  ⟨⟨by decide, by decide, by decide, by decide, by decide, by decide⟩,
    C3_selftrade_aborts_iteration s3.1 odSell2big 10 s3.2 [mkOrder odBuy1 7]
      (mkOrder odBuy2 9) [] (by decide) (by decide) (by decide) (by decide)
      (by decide) (by decide)⟩


/-- C4.  Given that `size = |queue|` and `totalVolume = Σ shares` held
before the call, they hold again after any `addOrderToLimit` and after
any non-throwing `processFill` (the proof of the second part does not in
fact need the non-throwing hypothesis: the self-trade throw happens
before any mutation of its iteration, so the invariant holds at the
throw as well). -/
theorem C4_size_totalVolume_invariant :
    (∀ (L : LimitState) (od : OrderData) (bk : Book) (oid : Nat),
      L.size = ((L.headChain.length : Nat) : Int) →
      L.totalVolume = sumShares L.headChain →
      (addOrderToLimit L od bk oid).1.size
          = (((addOrderToLimit L od bk oid).1.headChain.length : Nat) : Int)
      ∧ (addOrderToLimit L od bk oid).1.totalVolume
          = sumShares (addOrderToLimit L od bk oid).1.headChain)
    ∧ (∀ (L : LimitState) (td : OrderData) (oid : Nat) (bk : Book),
      L.size = ((L.headChain.length : Nat) : Int) →
      L.totalVolume = sumShares L.headChain →
      (processFill L td oid bk).selfTradeError = false →
      (processFill L td oid bk).limit.size
          = (((processFill L td oid bk).limit.headChain.length : Nat) : Int)
      ∧ (processFill L td oid bk).limit.totalVolume
          = sumShares (processFill L td oid bk).limit.headChain) := by
  constructor
  · intro L od bk oid hsz htv
    obtain ⟨hc, hs, ht, _, _, _⟩ := addOrderToLimit_spec L od bk oid
    constructor
    · rw [hs, hc, hsz]
      simp [List.length_append]
    · rw [ht, hc, htv, sumShares_append]
      simp [sumShares, mkOrder]
  · intro L td oid bk hsz htv _
    exact loop_size_tv (L.headChain.length + 1) td.clientId oid L.headChain L.size
      L.totalVolume td bk L.limitPrice L.tailOrder hsz htv

theorem C4_size_totalVolume_invariant_witness :
    ((s1.1.size = ((s1.1.headChain.length : Nat) : Int)
        ∧ s1.1.totalVolume = sumShares s1.1.headChain)
      ∧ ((addOrderToLimit s1.1 odBuy3 s1.2 9).1.size
            = (((addOrderToLimit s1.1 odBuy3 s1.2 9).1.headChain.length : Nat) : Int)
        ∧ (addOrderToLimit s1.1 odBuy3 s1.2 9).1.totalVolume
            = sumShares (addOrderToLimit s1.1 odBuy3 s1.2 9).1.headChain))
    ∧ ((s2.1.size = ((s2.1.headChain.length : Nat) : Int)
        ∧ s2.1.totalVolume = sumShares s2.1.headChain
        ∧ (processFill s2.1 odSell2big 10 s2.2).selfTradeError = false)
      ∧ ((processFill s2.1 odSell2big 10 s2.2).limit.size
            = (((processFill s2.1 odSell2big 10 s2.2).limit.headChain.length : Nat) : Int)
        ∧ (processFill s2.1 odSell2big 10 s2.2).limit.totalVolume
            = sumShares (processFill s2.1 odSell2big 10 s2.2).limit.headChain)) :=
  ⟨⟨⟨by decide, by decide⟩,
      C4_size_totalVolume_invariant.1 s1.1 odBuy3 s1.2 9 (by decide) (by decide)⟩,
    ⟨⟨by decide, by decide, by decide⟩,
      C4_size_totalVolume_invariant.2 s2.1 odSell2big 10 s2.2 (by decide) (by decide)
        (by decide)⟩⟩

/-- C5.  Every Execution produced by a fill arises as the execution
logged by one iteration of the `processFill` loop; for any state in
which the iteration runs (the guards of Limit.cpp line 54 pass and the
self-trade check does not fire), the execution appended for the head
maker `o` has `execPrice = o.limitPrice` (the resting price),
`execSize = min(o.shares, taker.shares)` computed from the shares at the
time of the fill, `makerLeavesQty = o.shares - execSize` and
`takerLeavesQty = taker.shares - execSize` (Limit.cpp lines 61,
91-92, 106-125). -/
theorem C5_execution_fields (f : Nat) (tcid toid : Nat) (o : Order)
    (rest : List Order) (sz tv : Int) (td : OrderData) (bk : Book) (lp : Int)
    (tl : Option Nat) (hsz : ¬sz = 0) (hts : ¬td.shares = 0)
    (hself : ¬tcid = o.clientId) :
    ∃ e t,
      (processFillLoop (f + 1) tcid toid (o :: rest) sz tv td bk lp tl).book.executions
        = bk.executions ++ e :: t
      ∧ e.execPrice = o.limitPrice
      ∧ e.execSize = min o.shares td.shares
      ∧ e.makerLeavesQty = o.shares - min o.shares td.shares
      ∧ e.takerLeavesQty = td.shares - min o.shares td.shares := by
  obtain ⟨t, htx⟩ := loop_one_step_exec f tcid toid o rest sz tv td bk lp tl hsz hts hself
  exact ⟨mkExecution (min o.shares td.shares) toid td o bk, t, htx, rfl, rfl, rfl, rfl⟩

theorem C5_execution_fields_witness :
    (¬(1 : Int) = 0 ∧ ¬odSell2.shares = 0 ∧ ¬odSell2.clientId = (mkOrder odBuy1 7).clientId)
    ∧ ∃ e t,
      (processFillLoop (1 + 1) odSell2.clientId 8 (mkOrder odBuy1 7 :: []) 1 5
          odSell2 bk0 100 (some 7)).book.executions
        = bk0.executions ++ e :: t
      ∧ e.execPrice = (mkOrder odBuy1 7).limitPrice
      ∧ e.execSize = min (mkOrder odBuy1 7).shares odSell2.shares
      ∧ e.makerLeavesQty = (mkOrder odBuy1 7).shares - min (mkOrder odBuy1 7).shares odSell2.shares
      ∧ e.takerLeavesQty = odSell2.shares - min (mkOrder odBuy1 7).shares odSell2.shares :=
  ⟨⟨by decide, by decide, by decide⟩,
    C5_execution_fields 1 odSell2.clientId 8 (mkOrder odBuy1 7) [] 1 5 odSell2 bk0
      100 (some 7) (by decide) (by decide) (by decide)⟩


/-- C6.  Average prices are exact volume-weighted averages.  `Sm`
(resp. `St`) abstracts the maker's (taker's) accumulated
`Σ execPrice·execSize` over all earlier fills, so the hypothesis
`avgPrice · executedQuantity = Sm` says the pre-fill average was the
volume-weighted average of the earlier fills; the conclusion
`newAvg · newCum = Sm + execSize·execPrice` says the updated average —
computed by Limit.cpp lines 97-104 as
`(oldCum·oldAvg + execVolume·execPrice) / newCum` — is exactly the
volume-weighted average of all fills up to and including this one.  The
divisor is `newCum = oldCum + execSize ≥ execSize > 0`, so the division
is never by zero whenever a fill is produced (both cum quantities are
proved positive). -/
theorem C6_avgPrice_vwap (f : Nat) (tcid toid : Nat) (o : Order)
    (rest : List Order) (sz tv : Int) (td : OrderData) (bk : Book) (lp : Int)
    (tl : Option Nat) (Sm St : ℚ)
    (hsz : ¬sz = 0) (htspos : 0 < td.shares) (hopos : 0 < o.shares)
    (hself : ¬tcid = o.clientId)
    (hmq : 0 ≤ o.executedQuantity) (htq : 0 ≤ td.executedQuantity)
    (hm : (o.executedQuantity : ℚ) * o.avgPrice = Sm)
    (ht : (td.executedQuantity : ℚ) * td.avgPrice = St) :
    ∃ e t,
      (processFillLoop (f + 1) tcid toid (o :: rest) sz tv td bk lp tl).book.executions
        = bk.executions ++ e :: t
      ∧ 0 < e.execSize
      ∧ e.makerCumQty = o.executedQuantity + e.execSize
      ∧ 0 < e.makerCumQty
      ∧ e.takerCumQty = td.executedQuantity + e.execSize
      ∧ 0 < e.takerCumQty
      ∧ e.makerAvgPrice * ((e.makerCumQty : Int) : ℚ)
          = Sm + ((e.execSize : Int) : ℚ) * ((e.execPrice : Int) : ℚ)
      ∧ e.takerAvgPrice * ((e.takerCumQty : Int) : ℚ)
          = St + ((e.execSize : Int) : ℚ) * ((e.execPrice : Int) : ℚ) := by
  have hts : ¬td.shares = 0 := by omega
  obtain ⟨t, htx⟩ := loop_one_step_exec f tcid toid o rest sz tv td bk lp tl hsz hts hself
  have hvolpos : 0 < min o.shares td.shares := lt_min hopos htspos
  have hmden : ((o.executedQuantity + min o.shares td.shares : Int) : ℚ) ≠ 0 := by
    have h0 : (0 : Int) < o.executedQuantity + min o.shares td.shares := by omega
    exact_mod_cast h0.ne'
  have htden : ((td.executedQuantity + min o.shares td.shares : Int) : ℚ) ≠ 0 := by
    have h0 : (0 : Int) < td.executedQuantity + min o.shares td.shares := by omega
    exact_mod_cast h0.ne'
  refine ⟨mkExecution (min o.shares td.shares) toid td o bk, t, htx, hvolpos, rfl,
    by simp only [mkExecution_makerCumQty]; omega, rfl,
    by simp only [mkExecution_takerCumQty]; omega, ?_, ?_⟩
  · simp only [mkExecution_makerAvgPrice, mkExecution_makerCumQty,
      mkExecution_execSize, mkExecution_execPrice, newMakerAvgPrice]
    rw [div_mul_cancel₀ _ hmden, hm]
  · simp only [mkExecution_takerAvgPrice, mkExecution_takerCumQty,
      mkExecution_execSize, mkExecution_execPrice, newTakerAvgPrice]
    rw [div_mul_cancel₀ _ htden, ht]

theorem C6_avgPrice_vwap_witness :
    (¬(1 : Int) = 0 ∧ 0 < odSell2.shares ∧ 0 < (mkOrder odBuy1 7).shares
      ∧ ¬odSell2.clientId = (mkOrder odBuy1 7).clientId
      ∧ 0 ≤ (mkOrder odBuy1 7).executedQuantity
      ∧ 0 ≤ odSell2.executedQuantity
      ∧ ((mkOrder odBuy1 7).executedQuantity : ℚ) * (mkOrder odBuy1 7).avgPrice = 0
      ∧ (odSell2.executedQuantity : ℚ) * odSell2.avgPrice = 0)
    ∧ ∃ e t,
      (processFillLoop (1 + 1) odSell2.clientId 8 (mkOrder odBuy1 7 :: []) 1 5
          odSell2 bk0 100 (some 7)).book.executions
        = bk0.executions ++ e :: t
      ∧ 0 < e.execSize
      ∧ e.makerCumQty = (mkOrder odBuy1 7).executedQuantity + e.execSize
      ∧ 0 < e.makerCumQty
      ∧ e.takerCumQty = odSell2.executedQuantity + e.execSize
      ∧ 0 < e.takerCumQty
      ∧ e.makerAvgPrice * ((e.makerCumQty : Int) : ℚ)
          = 0 + ((e.execSize : Int) : ℚ) * ((e.execPrice : Int) : ℚ)
      ∧ e.takerAvgPrice * ((e.takerCumQty : Int) : ℚ)
          = 0 + ((e.execSize : Int) : ℚ) * ((e.execPrice : Int) : ℚ) :=
  ⟨⟨by decide, by decide, by decide, by decide, by decide, by decide,
      by simp [mkOrder, odBuy1], by simp [odSell2]⟩,
    C6_avgPrice_vwap 1 odSell2.clientId 8 (mkOrder odBuy1 7) [] 1 5 odSell2 bk0
      100 (some 7) 0 0 (by decide) (by decide) (by decide) (by decide) (by decide)
      (by decide) (by simp [mkOrder, odBuy1]) (by simp [odSell2])⟩

/-- C7.  For the execution logged by any iteration of the fill loop:
`makerExecType = FullFill` iff the executed volume equals the maker's
pre-fill shares, else `PartialFill`; and `takerExecType = FullFill` iff
the taker's shares after the fill (pre-fill shares minus executed
volume) are 0, else `PartialFill` (Limit.cpp lines 91-95). -/
theorem C7_execTypes (f : Nat) (tcid toid : Nat) (o : Order)
    (rest : List Order) (sz tv : Int) (td : OrderData) (bk : Book) (lp : Int)
    (tl : Option Nat) (hsz : ¬sz = 0) (hts : ¬td.shares = 0)
    (hself : ¬tcid = o.clientId) :
    ∃ e t,
      (processFillLoop (f + 1) tcid toid (o :: rest) sz tv td bk lp tl).book.executions
        = bk.executions ++ e :: t
      ∧ e.execSize = min o.shares td.shares
      ∧ (e.makerExecType = ExecutionType.FullFill ↔ min o.shares td.shares = o.shares)
      ∧ (e.takerExecType = ExecutionType.FullFill ↔ td.shares - min o.shares td.shares = 0) := by
  obtain ⟨t, htx⟩ := loop_one_step_exec f tcid toid o rest sz tv td bk lp tl hsz hts hself
  refine ⟨mkExecution (min o.shares td.shares) toid td o bk, t, htx, rfl, ?_, ?_⟩
  · rw [mkExecution_makerExecType]
    by_cases hv : min o.shares td.shares = o.shares <;> simp [hv]
  · rw [mkExecution_takerExecType]
    by_cases hv : td.shares - min o.shares td.shares = 0 <;> simp [hv]

theorem C7_execTypes_witness :
    (¬(1 : Int) = 0 ∧ ¬odSell2.shares = 0
      ∧ ¬odSell2.clientId = (mkOrder odBuy1 7).clientId)
    ∧ ∃ e t,
      (processFillLoop (1 + 1) odSell2.clientId 8 (mkOrder odBuy1 7 :: []) 1 5
          odSell2 bk0 100 (some 7)).book.executions
        = bk0.executions ++ e :: t
      ∧ e.execSize = min (mkOrder odBuy1 7).shares odSell2.shares
      ∧ (e.makerExecType = ExecutionType.FullFill
          ↔ min (mkOrder odBuy1 7).shares odSell2.shares = (mkOrder odBuy1 7).shares)
      ∧ (e.takerExecType = ExecutionType.FullFill
          ↔ odSell2.shares - min (mkOrder odBuy1 7).shares odSell2.shares = 0) :=
  ⟨⟨by decide, by decide, by decide⟩,
    C7_execTypes 1 odSell2.clientId 8 (mkOrder odBuy1 7) [] 1 5 odSell2 bk0
      100 (some 7) (by decide) (by decide) (by decide)⟩


/-- C8 counterexample.  The claim states `size == 0` iff both
`headOrder` and `tailOrder` are empty after every operation, and in
particular that after `processFill` consumes the last resting order both
are empty.  On the code this fails: `processFill` (Limit.cpp lines
67-71) advances `headOrder` but never touches `tailOrder`, so after the
single resting order (id 3) of the Limit is fully consumed, `size = 0`
and the head is empty, but `tailOrder` still designates order 3. -/
theorem C8_counterexample_stale_tail :
    (processFill s4.1 odSell2at50 4 s4.2).limit.size = 0
    ∧ (processFill s4.1 odSell2at50 4 s4.2).limit.headChain = []
    ∧ (processFill s4.1 odSell2at50 4 s4.2).limit.tailOrder = some 3 := by
  decide

/-- C8 amended.  With the queue-length invariant holding before the
call, `size == 0 ↔ headOrder empty` holds after `addOrderToLimit` and
after `processFill`; but `processFill` leaves `tailOrder` exactly as it
was, so after it consumes the last resting order the head is empty while
the stale tail pointer still designates the consumed order (it is only
reset by the next `addOrderToLimit`, whose `if (!headOrder)` branch
re-points the tail). -/
theorem C8_amended_size_zero_iff_head_empty :
    (∀ (L : LimitState) (od : OrderData) (bk : Book) (oid : Nat),
      L.size = ((L.headChain.length : Nat) : Int) →
      ((addOrderToLimit L od bk oid).1.size = 0
        ↔ (addOrderToLimit L od bk oid).1.headChain = []))
    ∧ (∀ (L : LimitState) (td : OrderData) (oid : Nat) (bk : Book),
      L.size = ((L.headChain.length : Nat) : Int) →
      L.totalVolume = sumShares L.headChain →
      (((processFill L td oid bk).limit.size = 0
        ↔ (processFill L td oid bk).limit.headChain = [])
      ∧ (processFill L td oid bk).limit.tailOrder = L.tailOrder)) := by
  constructor
  · intro L od bk oid hsz
    obtain ⟨hc, hs, _, _, _, _⟩ := addOrderToLimit_spec L od bk oid
    rw [hs, hc, hsz]
    apply iff_of_false
    · have h0 : (0 : Int) ≤ ((L.headChain.length : Nat) : Int) := by positivity
      omega
    · simp
  · intro L td oid bk hsz htv
    have hsz2 := loop_size_tv (L.headChain.length + 1) td.clientId oid L.headChain
      L.size L.totalVolume td bk L.limitPrice L.tailOrder hsz htv
    have hmisc := loop_misc (L.headChain.length + 1) td.clientId oid L.headChain
      L.size L.totalVolume td bk L.limitPrice L.tailOrder
    refine ⟨?_, hmisc.1⟩
    show (processFillLoop (L.headChain.length + 1) td.clientId oid L.headChain
        L.size L.totalVolume td bk L.limitPrice L.tailOrder).limit.size = 0
      ↔ (processFillLoop (L.headChain.length + 1) td.clientId oid L.headChain
        L.size L.totalVolume td bk L.limitPrice L.tailOrder).limit.headChain = []
    rw [hsz2.1]
    constructor
    · intro h
      have hlen : (processFillLoop (L.headChain.length + 1) td.clientId oid L.headChain
          L.size L.totalVolume td bk L.limitPrice L.tailOrder).limit.headChain.length = 0 := by
        exact_mod_cast h
      exact List.length_eq_zero.mp hlen
    · intro h
      rw [h]
      simp

theorem C8_amended_witness :
    ((s1.1.size = ((s1.1.headChain.length : Nat) : Int))
      ∧ (s4.1.size = ((s4.1.headChain.length : Nat) : Int)
        ∧ s4.1.totalVolume = sumShares s4.1.headChain))
    ∧ (((addOrderToLimit s1.1 odBuy3 s1.2 9).1.size = 0
        ↔ (addOrderToLimit s1.1 odBuy3 s1.2 9).1.headChain = [])
      ∧ (((processFill s4.1 odSell2at50 4 s4.2).limit.size = 0
          ↔ (processFill s4.1 odSell2at50 4 s4.2).limit.headChain = [])
        ∧ (processFill s4.1 odSell2at50 4 s4.2).limit.tailOrder = s4.1.tailOrder)) :=
  ⟨⟨by decide, ⟨by decide, by decide⟩⟩,
    ⟨C8_amended_size_zero_iff_head_empty.1 s1.1 odBuy3 s1.2 9 (by decide),
      C8_amended_size_zero_iff_head_empty.2 s4.1 odSell2at50 4 s4.2 (by decide)
        (by decide)⟩⟩

/-- C9 counterexample.  The claim states that a fully filled maker is
removed from the OrderIndex, so that every order in the OrderIndex is
still resting in some Limit's queue.  On the code this fails:
`processFill` (Limit.cpp lines 54-77) unlinks the filled maker and
decrements `size` but performs no removal from the Book's order map —
the only OrderIndex traffic in Limit.cpp is the insertion in
`addOrderToLimit` (line 38).  Concretely: order 11 is fully filled and
leaves the (only) queue, yet the OrderIndex still contains it. -/
theorem C9_counterexample_index_retains_filled_order :
    (processFill s5.1 odSell6at7 12 s5.2).limit.headChain = []
    ∧ (processFill s5.1 odSell6at7 12 s5.2).limit.size = 0
    ∧ (processFill s5.1 odSell6at7 12 s5.2).book.allOrders = [11] := by
  decide

/-- C9 amended.  Fully filled makers are unlinked from the FIFO (the
residual queue is a tail of the original queue) and `size` is kept equal
to the queue length; but `processFill` never removes anything from the
OrderIndex — the Book's order map is returned unchanged — so fully
filled orders remain in the OrderIndex although they no longer rest in
any queue. -/
theorem C9_amended_unlink_without_index_removal (L : LimitState)
    (td : OrderData) (oid : Nat) (bk : Book)
    (hsz : L.size = ((L.headChain.length : Nat) : Int))
    (htv : L.totalVolume = sumShares L.headChain)
    (hnost : ∀ o ∈ L.headChain, o.clientId ≠ td.clientId) :
    (processFill L td oid bk).book.allOrders = bk.allOrders
    ∧ (∃ j, (processFill L td oid bk).limit.headChain.map Order.orderId
        = (L.headChain.map Order.orderId).drop j)
    ∧ (processFill L td oid bk).limit.size
        = (((processFill L td oid bk).limit.headChain.length : Nat) : Int) := by
  have hmisc := loop_misc (L.headChain.length + 1) td.clientId oid L.headChain
    L.size L.totalVolume td bk L.limitPrice L.tailOrder
  have hsz2 := loop_size_tv (L.headChain.length + 1) td.clientId oid L.headChain
    L.size L.totalVolume td bk L.limitPrice L.tailOrder hsz htv
  obtain ⟨_, _, _, m, hmle, hexec, j, hj⟩ := loop_run_spec (L.headChain.length + 1)
    td.clientId oid L.headChain L.size L.totalVolume td bk L.limitPrice L.tailOrder
    (Nat.lt_succ_self _) hsz hnost
  exact ⟨hmisc.2.2, ⟨j, hj⟩, hsz2.1⟩

theorem C9_amended_witness :
    (s2.1.size = ((s2.1.headChain.length : Nat) : Int)
      ∧ s2.1.totalVolume = sumShares s2.1.headChain
      ∧ (∀ o ∈ s2.1.headChain, o.clientId ≠ odSell2big.clientId))
    ∧ ((processFill s2.1 odSell2big 10 s2.2).book.allOrders = s2.2.allOrders
      ∧ (∃ j, (processFill s2.1 odSell2big 10 s2.2).limit.headChain.map Order.orderId
          = (s2.1.headChain.map Order.orderId).drop j)
      ∧ (processFill s2.1 odSell2big 10 s2.2).limit.size
          = (((processFill s2.1 odSell2big 10 s2.2).limit.headChain.length : Nat) : Int)) :=
  ⟨⟨by decide, by decide, by decide⟩,
    C9_amended_unlink_without_index_removal s2.1 odSell2big 10 s2.2 (by decide)
      (by decide) (by decide)⟩

/-- C10.  `processFill` terminates on every input: the walk never
exhausts its fuel of `|queue| + 1` loop entries (each iteration either
fully consumes the head maker and advances, or zeroes the taker's shares
so that the next guard check exits), and giving the loop any more fuel
computes the same result — the walk is bounded by the length of the
Limit's FIFO queue. -/
theorem C10_processFill_terminates (L : LimitState) (td : OrderData)
    (oid : Nat) (bk : Book) (n : Nat) :
    (processFill L td oid bk).fuelExhausted = false
    ∧ processFillLoop (L.headChain.length + 1 + n) td.clientId oid L.headChain
        L.size L.totalVolume td bk L.limitPrice L.tailOrder
      = processFill L td oid bk := by
  constructor
  · exact loop_no_fuelExhausted (L.headChain.length + 1) td.clientId oid
      L.headChain L.size L.totalVolume td bk L.limitPrice L.tailOrder
      (Nat.lt_succ_self _)
  · exact loop_fuel_stable (L.headChain.length + 1 + n) (L.headChain.length + 1)
      td.clientId oid L.headChain L.size L.totalVolume td bk L.limitPrice
      L.tailOrder (by omega) (Nat.lt_succ_self _)


end OrderBook
